import Mathlib

/-!
Verification of the qfrm option-pricing core: the binomial lattice engine of
`European._calc_LT` / `LowExercisePrice._calc_LT`, the analytic pricer
`European._calc_BS`, and the implicit finite-difference solver
`LowExercisePrice._calc_FD`.  Floating-point arithmetic is embedded as exact
real arithmetic; machine floats' rounding is outside the model, so equalities
proved here are the exact-arithmetic idealizations of the code's float
computations.
-/

namespace QFRM

/-- Lattice constants consumed by `_calc_LT` via the dictionary returned by
`OptionValuation.LT_specs`: up factor `u`, down factor `d`, risk-neutral
probability `p`, per-step discount `df_dt`, horizon discount `df_T`. -/
structure LTSpecs where
  u : ℝ
  d : ℝ
  p : ℝ
  df_dt : ℝ
  df_T : ℝ

/-- Modelled from the spec: `OptionValuation.LT_specs` is not under `src/`;
spec section 4.1 prescribes the Cox-Ross-Rubinstein parameterization with
`dt = T/n`, `u = exp(vol*sqrt(dt))`, `u*d = 1`, risk-neutral `p` derived from
`r`, `q`, `vol`, `dt`, `df_dt = exp(-r*dt)` and `df_T = exp(-r*T)`. -/
noncomputable def ltSpecsCRR (vol r q T : ℝ) (n : ℕ) : LTSpecs :=
  { u := Real.exp (vol * Real.sqrt (T / n))
    d := Real.exp (-(vol * Real.sqrt (T / n)))
    p := (Real.exp ((r - q) * (T / n)) - Real.exp (-(vol * Real.sqrt (T / n)))) /
      (Real.exp (vol * Real.sqrt (T / n)) - Real.exp (-(vol * Real.sqrt (T / n))))
    df_dt := Real.exp (-r * (T / n))
    df_T := Real.exp (-r * T) }

/-- Terminal stock prices of the binomial tree, from
`S = Vec(d)**decr_n * Vec(u)**incr_n * S0` with `decr_n = (n..0)` and
`incr_n = (0..n)`: node `i` holds `d^(n-i) * u^i * S0`. -/
noncomputable def terminalS (sp : LTSpecs) (S0 : ℝ) (n : ℕ) : List ℝ :=
  List.ofFn (fun i : Fin (n + 1) => sp.d ^ (n - i.val) * sp.u ^ i.val * S0)

/-- Terminal payoff of one node, from `((S - K) * signCP).max(0)`. -/
noncomputable def payoffE (K signCP s : ℝ) : ℝ := max ((s - K) * signCP) 0

/-- Terminal payoff list `O` of `European._calc_LT`. -/
noncomputable def terminalO (K signCP : ℝ) (S : List ℝ) : List ℝ :=
  S.map (payoffE K signCP)

/-- One backward value roll, from
`O = (Vec(O[:i]) * (1 - p) + Vec(O[1:]) * p) * df_dt`: adjacent pairs of the
current value list are combined into the one-step-earlier list. -/
noncomputable def rollO (p df : ℝ) (O : List ℝ) : List ℝ :=
  List.zipWith (fun x y => (x * (1 - p) + y * p) * df) O O.tail

/-- One backward stock-price roll, from `S = Vec(S[1:i+1]) * d`. -/
noncomputable def rollS (d : ℝ) (S : List ℝ) : List ℝ :=
  S.tail.map (fun s => s * d)

/-- The mutable loop state of the full-history branch of `_calc_LT`:
current price list `S`, current value list `O`, and the accumulated
(prepended) trees `S_tree`, `O_tree`. -/
structure LTState where
  S : List ℝ
  O : List ℝ
  Str : List (List ℝ)
  Otr : List (List ℝ)

/-- One iteration of the `for i in range(n, 0, -1)` loop of `_calc_LT`
(full-history branch): roll both lists and prepend them to the trees. -/
noncomputable def ltStep (sp : LTSpecs) (st : LTState) : LTState :=
  ⟨rollS sp.d st.S, rollO sp.p sp.df_dt st.O,
    rollS sp.d st.S :: st.Str, rollO sp.p sp.df_dt st.O :: st.Otr⟩

/-- State after `k` iterations of the full-history loop, starting from the
terminal lists and the singleton trees `(S,), (O,)`. -/
noncomputable def ltRun (sp : LTSpecs) (S0 K signCP : ℝ) (n k : ℕ) : LTState :=
  (ltStep sp)^[k]
    ⟨terminalS sp S0 n, terminalO K signCP (terminalS sp S0 n),
      [terminalS sp S0 n], [terminalO K signCP (terminalS sp S0 n)]⟩

/-- The stored reference tree `ref_tree` (full-history mode, n loop turns). -/
noncomputable def S_tree (sp : LTSpecs) (S0 K signCP : ℝ) (n : ℕ) : List (List ℝ) :=
  (ltRun sp S0 K signCP n n).Str

/-- The stored option tree `opt_tree` (full-history mode, n loop turns). -/
noncomputable def O_tree (sp : LTSpecs) (S0 K signCP : ℝ) (n : ℕ) : List (List ℝ) :=
  (ltRun sp S0 K signCP n n).Otr

/-- The full-history price `out = O_tree[0][0]`. -/
noncomputable def fullHistPx (sp : LTSpecs) (S0 K signCP : ℝ) (n : ℕ) : ℝ :=
  ((O_tree sp S0 K signCP n).getD 0 []).getD 0 0

/-- `csl`, from `(0.,) + cumsum(log(arange(1, n+1)))`: `csl k = log(k!)`
accumulated as a cumulative sum of `log 1, ..., log k`. -/
noncomputable def csl (k : ℕ) : ℝ := ∑ j ∈ Finset.range k, Real.log (j + 1)

/-- The closed-form collapse price, from
`tmp = csl[n] - csl - reversed(csl) + incr_n*log(p) + decr_n*log(1-p)` and
`out = sum(tmp.exp * df_T * O)`. -/
noncomputable def collapsePx (sp : LTSpecs) (n : ℕ) (O : List ℝ) : ℝ :=
  ∑ i ∈ Finset.range (n + 1),
    Real.exp (csl n - csl i - csl (n - i) +
        (i : ℝ) * Real.log sp.p + ((n - i : ℕ) : ℝ) * Real.log (1 - sp.p)) *
      sp.df_T * O.getD i 0

/-- `European._calc_LT` price as a function of the lattice constants, the
option data and `keep_hist`: full-history roll when `keep_hist`, log-space
binomial collapse otherwise. -/
noncomputable def calc_LT (sp : LTSpecs) (S0 K signCP : ℝ) (n : ℕ)
    (keep_hist : Bool) : ℝ :=
  if keep_hist then fullHistPx sp S0 K signCP n
  else collapsePx sp n (terminalO K signCP (terminalS sp S0 n))

/-- `d1` of `European._calc_BS`. -/
noncomputable def d1BS (S0 K vol r T : ℝ) : ℝ :=
  (Real.log (S0 / K) + (r + vol ^ 2 / 2) * T) / (vol * Real.sqrt T)

/-- `d2 = d1 - vol * sqrt(T)` of `European._calc_BS`. -/
noncomputable def d2BS (S0 K vol r T : ℝ) : ℝ :=
  d1BS S0 K vol r T - vol * Real.sqrt T

/-- `px_call` of `European._calc_BS`, parameterized by the cumulative normal
distribution function `N` (`Util.norm_cdf`, which is outside `src/`). -/
noncomputable def pxCallBS (N : ℝ → ℝ) (S0 K vol r q T : ℝ) : ℝ :=
  S0 * Real.exp (-q * T) * N (d1BS S0 K vol r T) -
    K * Real.exp (-r * T) * N (d2BS S0 K vol r T)

/-- `px_put` of `European._calc_BS`. -/
noncomputable def pxPutBS (N : ℝ → ℝ) (S0 K vol r q T : ℝ) : ℝ :=
  -(S0 * Real.exp (-q * T)) * N (-d1BS S0 K vol r T) +
    K * Real.exp (-r * T) * N (-d2BS S0 K vol r T)

/-- The inputs of `LowExercisePrice._calc_FD`: the object state read by the
method (`self.right`, `self.ref.S0`, `self.ref.vol`, `self.T`, `self.K`,
`self.rf_r`, `self.ref.q`) and the step/path counts from `px_spec`. -/
structure FDIn where
  right : String
  S0 : ℝ
  vol : ℝ
  T : ℝ
  K : ℝ
  r : ℝ
  q : ℝ
  nsteps : ℕ
  npaths : ℕ

/-- The strike hardcoded by `LowExercisePrice` (`K = 0.01`). -/
noncomputable def KLEP : ℝ := 0.01

/-- The secondary moneyness threshold hardcoded by `_calc_FD` (`K2 = 0`). -/
noncomputable def K2LEP : ℝ := 0

/-- `M = px_paths - 1`. -/
def Mfd (I : FDIn) : ℕ := I.npaths - 1

/-- `N = time_steps - 1`. -/
def Nfd (I : FDIn) : ℕ := I.nsteps - 1

/-- `d_t = ttm / (time_steps - 1)` (float subtraction in the source). -/
noncomputable def dtFD (I : FDIn) : ℝ := I.T / ((I.nsteps : ℝ) - 1)

/-- The price grid `S_vec = linspace(0, 2*S0, px_paths)`:
point `i` is `i * 2*S0 / (px_paths - 1)`. -/
noncomputable def svec (I : FDIn) (i : ℕ) : ℝ :=
  i * (2 * I.S0) / ((I.npaths : ℝ) - 1)

/-- The time grid `t_vec = linspace(0, ttm, time_steps)`. -/
noncomputable def tvec (I : FDIn) (idx : ℕ) : ℝ :=
  idx * I.T / ((I.nsteps : ℝ) - 1)

/-- `a_list[j] = 0.5*d_t*((r-q)*j - vol^2*j^2)`. -/
noncomputable def aFD (I : FDIn) (j : ℕ) : ℝ :=
  0.5 * dtFD I * ((I.r - I.q) * j - I.vol ^ 2 * j ^ 2)

/-- `b_list[j] = 1 + d_t*(vol^2*j^2 + r)`. -/
noncomputable def bFD (I : FDIn) (j : ℕ) : ℝ :=
  1 + dtFD I * (I.vol ^ 2 * j ^ 2 + I.r)

/-- `c_list[j] = 0.5*d_t*(-(r-q)*j - vol^2*j^2)`. -/
noncomputable def cFD (I : FDIn) (j : ℕ) : ℝ :=
  0.5 * dtFD I * (-(I.r - I.q) * j - I.vol ^ 2 * j ^ 2)

section WithClassical

open Classical

/-- Real-valued indicator of a condition, as numpy's boolean-array
multiplication (`*(S_vec>=K2)`) coerces booleans to `0`/`1`. -/
noncomputable def indR (P : Prop) : ℝ := if P then 1 else 0

/-- `init_cond`: terminal payoff per grid point, gated by moneyness against
`K2` (`np.maximum((S_vec-K),0)*(S_vec>=K2)` for a call and the mirrored form
for a put). -/
noncomputable def initCond (I : FDIn) (i : ℕ) : ℝ :=
  if I.right = "call" then max (svec I i - KLEP) 0 * indR (K2LEP ≤ svec I i)
  else if I.right = "put" then max (KLEP - svec I i) 0 * indR (svec I i ≤ K2LEP)
  else 0

/-- `upper_bound`: the row fixed at price index 0 (0 for a call, the
discounted deep payoff for a put). -/
noncomputable def upperBound (I : FDIn) (idx : ℕ) : ℝ :=
  if I.right = "call" then 0
  else if I.right = "put" then
    max (KLEP - svec I 0) 0 * indR (svec I 0 ≤ K2LEP) *
      Real.exp (-I.r * (I.T - tvec I idx))
  else 0

/-- `lower_bound`: the row fixed at price index `M` (the discounted deep
payoff `max(S_vec[-1]-K,0)*(S_vec[-1]>=K2)*exp(-r*(ttm-t_vec))` for a call,
0 for a put). -/
noncomputable def lowerBound (I : FDIn) (idx : ℕ) : ℝ :=
  if I.right = "call" then
    max (svec I (Mfd I) - KLEP) 0 * indR (K2LEP ≤ svec I (Mfd I)) *
      Real.exp (-I.r * (I.T - tvec I idx))
  else 0

/-- The tridiagonal matrix `B = sparse.diags((a_list[2:M], b_list[1:M],
c_list[1:M-1]), [-1,0,1])` over the interior price indices `1..M-1`: the row
for price index `j` holds `a_j` on the subdiagonal, `b_j` on the diagonal and
`c_j` on the superdiagonal. -/
noncomputable def Bfd (I : FDIn) : Matrix (Fin (Mfd I - 1)) (Fin (Mfd I - 1)) ℝ :=
  Matrix.of fun rr cc =>
    if (cc : ℕ) = (rr : ℕ) then bFD I ((rr : ℕ) + 1)
    else if (cc : ℕ) + 1 = (rr : ℕ) then aFD I ((rr : ℕ) + 1)
    else if (rr : ℕ) + 1 = (cc : ℕ) then cFD I ((rr : ℕ) + 1)
    else 0

/-- The grid `f_px` just before the time loop: zeros, then `f_px[:,N] =
init_cond`, then `f_px[0,:] = upper_bound`, then `f_px[M,:] = lower_bound`
(later writes win). -/
noncomputable def grid0 (I : FDIn) (i idx : ℕ) : ℝ :=
  if i = Mfd I then lowerBound I idx
  else if i = 0 then upperBound I idx
  else if idx = Nfd I then initCond I i
  else 0

/-- The `Offset` vector of one time step: `Offset = zeros(M-1)`, then
`Offset[0] = -a_list[1]*f_px[0,idx]`, then `Offset[-1] =
-c_list[M-1]*f_px[M,idx]` (the second write wins when `M = 2`, because the
two cells coincide). -/
noncomputable def offsetFD (I : FDIn) (g : ℕ → ℕ → ℝ) (idx k : ℕ) : ℝ :=
  if k = Mfd I - 1 - 1 then -cFD I (Mfd I - 1) * g (Mfd I) idx
  else if k = 0 then -aFD I 1 * g 0 idx
  else 0

/-- The right-hand side `f_px[1:M,idx+1] + Offset` of the linear solve. -/
noncomputable def rhsFD (I : FDIn) (g : ℕ → ℕ → ℝ) (idx : ℕ) :
    Fin (Mfd I - 1) → ℝ :=
  fun k => g ((k : ℕ) + 1) (idx + 1) + offsetFD I g idx (k : ℕ)

/-- `sparse.linalg.spsolve(B, rhs)`, modelled as the exact solution of the
linear system (multiplication by the matrix inverse; the external solver is
outside `src/` and, per the spec, simply solves the system). -/
noncomputable def solveFD (I : FDIn) (g : ℕ → ℕ → ℝ) (idx : ℕ) :
    Fin (Mfd I - 1) → ℝ :=
  (Bfd I)⁻¹.mulVec (rhsFD I g idx)

/-- One iteration of the backward time loop: write the solved interior column
at `idx`, then re-assign `f_px[:,-1] = init_cond`, `f_px[0,:] = upper_bound`,
`f_px[-1,:] = lower_bound` (later writes win). -/
noncomputable def stepFD (I : FDIn) (g : ℕ → ℕ → ℝ) (idx : ℕ) : ℕ → ℕ → ℝ :=
  fun i t =>
    if i = Mfd I then lowerBound I t
    else if i = 0 then upperBound I t
    else if t = Nfd I then initCond I i
    else if h : t = idx ∧ 1 ≤ i ∧ i ≤ Mfd I - 1 then
      solveFD I g idx ⟨i - 1, by omega⟩
    else g i t

/-- One iteration of the backward time loop with the three defensive
re-assignments removed: only the solved interior column is written. -/
noncomputable def stepFDnr (I : FDIn) (g : ℕ → ℕ → ℝ) (idx : ℕ) : ℕ → ℕ → ℝ :=
  fun i t =>
    if h : t = idx ∧ 1 ≤ i ∧ i ≤ Mfd I - 1 then
      solveFD I g idx ⟨i - 1, by omega⟩
    else g i t

/-- The grid after `k` iterations of the loop `for idx in arange(N-1,-1,-1)`:
iteration `k` processes time index `idx = N-1-k`. -/
noncomputable def gridFD (I : FDIn) : ℕ → ℕ → ℕ → ℝ
  | 0 => grid0 I
  | k + 1 => stepFD I (gridFD I k) (Nfd I - 1 - k)

/-- Same loop with the defensive re-assignments removed. -/
noncomputable def gridFDnr (I : FDIn) : ℕ → ℕ → ℕ → ℝ
  | 0 => grid0 I
  | k + 1 => stepFDnr I (gridFDnr I k) (Nfd I - 1 - k)

/-- Largest index `k ≤ m` with `xs k ≤ x` (0 when there is none): the cell
search of `np.interp` over an increasing knot sequence. -/
noncomputable def interpIdx (x : ℝ) (xs : ℕ → ℝ) : ℕ → ℕ
  | 0 => 0
  | m + 1 => if xs (m + 1) ≤ x then m + 1 else interpIdx x xs m

/-- `np.interp(x, xs, ys)` over knots `xs 0 .. xs m`: clamp outside the knot
range, linear interpolation on the bracketing cell inside. -/
noncomputable def npInterp (x : ℝ) (xs ys : ℕ → ℝ) (m : ℕ) : ℝ :=
  if x ≤ xs 0 then ys 0
  else if xs m ≤ x then ys m
  else
    ys (interpIdx x xs (m - 1)) +
      (ys (interpIdx x xs (m - 1) + 1) - ys (interpIdx x xs (m - 1))) *
        (x - xs (interpIdx x xs (m - 1))) /
        (xs (interpIdx x xs (m - 1) + 1) - xs (interpIdx x xs (m - 1)))

/-- The price returned by `_calc_FD`:
`np.interp(S0, S_vec, f_px[:,0])` after the full backward loop. -/
noncomputable def fdPrice (I : FDIn) : ℝ :=
  npInterp I.S0 (svec I) (fun i => gridFD I (Nfd I) i 0) (Mfd I)

/-- The price with the defensive re-assignments removed. -/
noncomputable def fdPriceNR (I : FDIn) : ℝ :=
  npInterp I.S0 (svec I) (fun i => gridFDnr I (Nfd I) i 0) (Mfd I)

/-- The assert gate at the top of `_calc_FD`: right must be call or put,
`vol > 0`, `K > 0`, `T > 0`, `S0 >= 0`, `r >= 0`. -/
def fdValid (I : FDIn) : Prop :=
  (I.right = "call" ∨ I.right = "put") ∧
    0 < I.vol ∧ 0 < I.K ∧ 0 < I.T ∧ 0 ≤ I.S0 ∧ 0 ≤ I.r

/-- `_calc_FD` as a fallible call: the assert gate runs before any
computation, so a violated precondition fails the call with no partial
result; otherwise the finite-difference price is produced. -/
noncomputable def calcFD (I : FDIn) : Except String ℝ :=
  if fdValid I then Except.ok (fdPrice I) else Except.error "invalid argument"

end WithClassical

/-- Terminal payoffs of `LowExercisePrice._calc_LT`:
`O = np.maximum((S - 0.01), 0)` with the strike hardcoded. -/
noncomputable def lepTerminalO (S : List ℝ) : List ℝ :=
  S.map (fun s => max (s - KLEP) 0)

/-- Full-history state of `LowExercisePrice._calc_LT` (identical loop body to
the European one), generalized over the two initial lists. -/
noncomputable def ltRunFrom (sp : LTSpecs) (Sterm Oterm : List ℝ) (k : ℕ) : LTState :=
  (ltStep sp)^[k] ⟨Sterm, Oterm, [Sterm], [Oterm]⟩

/-- Full-history price of `LowExercisePrice._calc_LT`. -/
noncomputable def lepFullHistPx (sp : LTSpecs) (S0 : ℝ) (n : ℕ) : ℝ :=
  (((ltRunFrom sp (terminalS sp S0 n)
      (lepTerminalO (terminalS sp S0 n)) n).Otr.getD 0 []).getD 0 0)

/-- Collapse branch of `LowExercisePrice._calc_LT`:
`out = df_T * sum(np.exp(tmp) * O)`. -/
noncomputable def lepCollapsePx (sp : LTSpecs) (n : ℕ) (O : List ℝ) : ℝ :=
  sp.df_T * ∑ i ∈ Finset.range (n + 1),
    Real.exp (csl n - csl i - csl (n - i) +
        Real.log sp.p * (i : ℝ) + Real.log (1 - sp.p) * ((n - i : ℕ) : ℝ)) *
      O.getD i 0

/-- `LowExercisePrice._calc_LT` price. -/
noncomputable def lep_calc_LT (sp : LTSpecs) (S0 : ℝ) (n : ℕ)
    (keep_hist : Bool) : ℝ :=
  if keep_hist then lepFullHistPx sp S0 n
  else lepCollapsePx sp n (lepTerminalO (terminalS sp S0 n))

/-- `LowExercisePrice.calc_px` dispatching to the lattice method: it first
overwrites `self.K = 0.01` and `self.right = 'call'`, so the caller-supplied
strike and right are dead values; `_calc_LT` then hardcodes the strike 0.01
in the payoff. -/
noncomputable def lepCalcPxLT (callerK : ℝ) (callerRight : String)
    (vol r q T S0 : ℝ) (n : ℕ) (keep_hist : Bool) : ℝ :=
  lep_calc_LT (ltSpecsCRR vol r q T n) S0 n keep_hist

/-- `LowExercisePrice.calc_px` dispatching to the finite-difference method:
the object reaching `_calc_FD` carries `right = 'call'` and `K = 0.01`
regardless of the caller's values, and `_calc_FD` additionally hardcodes
`K = 0.01`, `K2 = 0` internally. -/
noncomputable def lepCalcPxFD (callerK : ℝ) (callerRight : String)
    (S0 vol T r q : ℝ) (nsteps npaths : ℕ) : Except String ℝ :=
  calcFD ⟨"call", S0, vol, T, KLEP, r, q, nsteps, npaths⟩

/-- A concrete valid finite-difference input used to instantiate theorems:
a call with `S0 = 1`, `vol = 1/10`, `T = 2`, `K = 1`, `r = 0`, `q = 3`,
`nsteps = 3` (so `N = 2`), `npaths = 4` (so `M = 3`). -/
noncomputable def IW : FDIn :=
  { right := "call", S0 := 1, vol := 1/10, T := 2, K := 1, r := 0, q := 3,
    nsteps := 3, npaths := 4 }

/-- A concrete valid finite-difference input with `npaths = 3`, i.e. `M = 2`:
the interior has a single cell, so the two `Offset` writes hit the same cell.
A call with `S0 = 1`, `vol = 1`, `T = 1`, `K = 1`, `r = 0`, `q = 0`,
`nsteps = 2` (so `N = 1`). -/
noncomputable def IW2 : FDIn :=
  { right := "call", S0 := 1, vol := 1, T := 1, K := 1, r := 0, q := 0,
    nsteps := 2, npaths := 3 }

section ListLemmas

theorem length_rollO (p df : ℝ) (O : List ℝ) :
    (rollO p df O).length = O.length - 1 := by
  simp [rollO]

theorem length_rollS (d : ℝ) (S : List ℝ) :
    (rollS d S).length = S.length - 1 := by
  simp [rollS]

theorem getD_eq (L : List ℝ) (i : ℕ) (h : i < L.length) :
    L.getD i 0 = L.get ⟨i, h⟩ := by
  simp [List.getD_eq_getElem?_getD, List.getElem?_eq_getElem h]

theorem getD_rollO (p df : ℝ) (O : List ℝ) (i : ℕ) (h : i + 1 < O.length) :
    (rollO p df O).getD i 0 =
      (O.getD i 0 * (1 - p) + O.getD (i + 1) 0 * p) * df := by
  have hlen : i < (rollO p df O).length := by
    rw [length_rollO]; omega
  have h0 : i < O.length := by omega
  have ht : i < O.tail.length := by
    simp [List.length_tail]; omega
  rw [getD_eq _ _ hlen, getD_eq _ _ h0, getD_eq _ _ h]
  simp [rollO, List.get_eq_getElem, List.getElem_zipWith, List.getElem_tail]

theorem getD_rollS (d : ℝ) (S : List ℝ) (i : ℕ) (h : i + 1 < S.length) :
    (rollS d S).getD i 0 = S.getD (i + 1) 0 * d := by
  have hlen : i < (rollS d S).length := by
    rw [length_rollS]; omega
  have ht : i < S.tail.length := by
    simp [List.length_tail]; omega
  rw [getD_eq _ _ hlen, getD_eq _ _ h]
  simp [rollS, List.get_eq_getElem, List.getElem_map, List.getElem_tail]

theorem length_terminalS (sp : LTSpecs) (S0 : ℝ) (n : ℕ) :
    (terminalS sp S0 n).length = n + 1 := by
  simp [terminalS]

theorem getD_terminalS (sp : LTSpecs) (S0 : ℝ) (n i : ℕ) (h : i < n + 1) :
    (terminalS sp S0 n).getD i 0 = sp.d ^ (n - i) * sp.u ^ i * S0 := by
  have h' : i < (terminalS sp S0 n).length := by rw [length_terminalS]; omega
  rw [getD_eq _ _ h']
  simp only [terminalS, List.get_eq_getElem, List.getElem_ofFn]

theorem length_terminalO (K signCP : ℝ) (S : List ℝ) :
    (terminalO K signCP S).length = S.length := by
  simp [terminalO]

theorem getD_terminalO (K signCP : ℝ) (S : List ℝ) (i : ℕ) (h : i < S.length) :
    (terminalO K signCP S).getD i 0 = max ((S.getD i 0 - K) * signCP) 0 := by
  have h' : i < (terminalO K signCP S).length := by rw [length_terminalO]; omega
  rw [getD_eq _ _ h', getD_eq _ _ h]
  simp [terminalO, payoffE, List.get_eq_getElem, List.getElem_map]

end ListLemmas

section BinomialCore

/-- Pascal recombination: one convex-combination layer turns the
`k`-step binomial weighting into the `(k+1)`-step one. -/
theorem pascal_sum (p : ℝ) (k : ℕ) (L : ℕ → ℝ) :
    ∑ j ∈ Finset.range (k + 1),
      (k.choose j : ℝ) * p ^ j * (1 - p) ^ (k - j) * (L j * (1 - p) + L (j + 1) * p) =
    ∑ i ∈ Finset.range (k + 2),
      ((k + 1).choose i : ℝ) * p ^ i * (1 - p) ^ (k + 1 - i) * L i := by
  have split : ∀ j ∈ Finset.range (k + 1),
      (k.choose j : ℝ) * p ^ j * (1 - p) ^ (k - j) * (L j * (1 - p) + L (j + 1) * p) =
      (k.choose j : ℝ) * p ^ j * (1 - p) ^ (k + 1 - j) * L j +
        (k.choose j : ℝ) * p ^ (j + 1) * (1 - p) ^ (k - j) * L (j + 1) := by
    intro j hj
    have hjk : j < k + 1 := Finset.mem_range.mp hj
    have hpow : (1 - p) ^ (k + 1 - j) = (1 - p) ^ (k - j) * (1 - p) := by
      rw [← pow_succ]
      congr 1
      omega
    rw [hpow]; ring
  rw [Finset.sum_congr rfl split, Finset.sum_add_distrib]
  rw [Finset.sum_range_succ'
    (fun i => ((k + 1).choose i : ℝ) * p ^ i * (1 - p) ^ (k + 1 - i) * L i) (k + 1)]
  have hT1 : ∑ j ∈ Finset.range (k + 1),
      (k.choose j : ℝ) * p ^ j * (1 - p) ^ (k + 1 - j) * L j =
      (∑ j ∈ Finset.range k,
        (k.choose (j + 1) : ℝ) * p ^ (j + 1) * (1 - p) ^ (k - j) * L (j + 1)) +
        (1 - p) ^ (k + 1) * L 0 := by
    rw [Finset.sum_range_succ'
      (fun j => (k.choose j : ℝ) * p ^ j * (1 - p) ^ (k + 1 - j) * L j) k]
    congr 1
    · apply Finset.sum_congr rfl
      intro j hj
      have : k + 1 - (j + 1) = k - j := by omega
      rw [this]
    · simp
  have hBt : ∑ i ∈ Finset.range (k + 1),
      ((k + 1).choose (i + 1) : ℝ) * p ^ (i + 1) * (1 - p) ^ (k + 1 - (i + 1)) * L (i + 1) =
      (∑ i ∈ Finset.range (k + 1),
        (k.choose i : ℝ) * p ^ (i + 1) * (1 - p) ^ (k - i) * L (i + 1)) +
        ∑ i ∈ Finset.range k,
          (k.choose (i + 1) : ℝ) * p ^ (i + 1) * (1 - p) ^ (k - i) * L (i + 1) := by
    have term : ∀ i ∈ Finset.range (k + 1),
        ((k + 1).choose (i + 1) : ℝ) * p ^ (i + 1) * (1 - p) ^ (k + 1 - (i + 1)) * L (i + 1) =
        (k.choose i : ℝ) * p ^ (i + 1) * (1 - p) ^ (k - i) * L (i + 1) +
          (k.choose (i + 1) : ℝ) * p ^ (i + 1) * (1 - p) ^ (k - i) * L (i + 1) := by
      intro i hi
      have h1 : k + 1 - (i + 1) = k - i := by omega
      have h2 : (((k + 1).choose (i + 1) : ℕ) : ℝ) =
          (k.choose i : ℝ) + (k.choose (i + 1) : ℝ) := by
        rw [Nat.choose_succ_succ]
        push_cast
        ring
      rw [h1, h2]; ring
    rw [Finset.sum_congr rfl term, Finset.sum_add_distrib]
    congr 1
    rw [Finset.sum_range_succ]
    simp [Nat.choose_succ_self]
  rw [hBt, hT1]
  simp only [Nat.choose_zero_right, Nat.cast_one, pow_zero, Nat.sub_zero]
  ring

/-- Head of the `k`-fold backward roll of a length-`k+1` list: the discounted
binomial expectation of the list entries. -/
theorem rollO_iter_head (p df : ℝ) :
    ∀ (k : ℕ) (L : List ℝ), L.length = k + 1 →
    ((rollO p df)^[k] L).getD 0 0 =
      df ^ k * ∑ i ∈ Finset.range (k + 1),
        (k.choose i : ℝ) * p ^ i * (1 - p) ^ (k - i) * L.getD i 0 := by
  intro k
  induction k with
  | zero =>
    intro L hL
    simp
  | succ k ih =>
    intro L hL
    rw [Function.iterate_succ_apply]
    have hlen : (rollO p df L).length = k + 1 := by
      rw [length_rollO, hL]
      omega
    rw [ih _ hlen]
    have hterm : ∀ i ∈ Finset.range (k + 1),
        (k.choose i : ℝ) * p ^ i * (1 - p) ^ (k - i) * (rollO p df L).getD i 0 =
        ((k.choose i : ℝ) * p ^ i * (1 - p) ^ (k - i) *
          (L.getD i 0 * (1 - p) + L.getD (i + 1) 0 * p)) * df := by
      intro i hi
      have hik : i < k + 1 := Finset.mem_range.mp hi
      rw [getD_rollO p df L i (by omega)]
      ring
    rw [Finset.sum_congr rfl hterm, ← Finset.sum_mul]
    rw [pascal_sum p k (fun i => L.getD i 0)]
    ring

/-- The cumulative log sum equals the log of the factorial. -/
theorem csl_eq_log_factorial (k : ℕ) : csl k = Real.log (k.factorial : ℝ) := by
  induction k with
  | zero => simp [csl]
  | succ k ih =>
    have : csl (k + 1) = csl k + Real.log ((k : ℝ) + 1) := by
      rw [csl, csl, Finset.sum_range_succ]
    rw [this, ih, Nat.factorial_succ]
    have hfac : ((k.factorial : ℕ) : ℝ) ≠ 0 := by
      exact_mod_cast k.factorial_ne_zero
    have hk1 : ((k : ℝ) + 1) ≠ 0 := by positivity
    push_cast
    rw [Real.log_mul hk1 hfac]
    ring

/-- The log-space binomial weight of `_calc_LT`'s collapse branch
exponentiates to the exact binomial weight `C(n,i) p^i (1-p)^(n-i)`. -/
theorem exp_tmp (sp : LTSpecs) (n i : ℕ) (hi : i ≤ n)
    (hp0 : 0 < sp.p) (hp1 : sp.p < 1) :
    Real.exp (csl n - csl i - csl (n - i) +
        (i : ℝ) * Real.log sp.p + ((n - i : ℕ) : ℝ) * Real.log (1 - sp.p)) =
      (n.choose i : ℝ) * sp.p ^ i * (1 - sp.p) ^ (n - i) := by
  have hq0 : (0 : ℝ) < 1 - sp.p := by linarith
  have hfn : (0 : ℝ) < (n.factorial : ℝ) := by exact_mod_cast n.factorial_pos
  have hfi : (0 : ℝ) < (i.factorial : ℝ) := by exact_mod_cast i.factorial_pos
  have hfni : (0 : ℝ) < ((n - i).factorial : ℝ) := by
    exact_mod_cast (n - i).factorial_pos
  rw [csl_eq_log_factorial, csl_eq_log_factorial, csl_eq_log_factorial]
  rw [Real.exp_add, Real.exp_add, Real.exp_sub, Real.exp_sub]
  rw [Real.exp_nat_mul, Real.exp_nat_mul]
  rw [Real.exp_log hfn, Real.exp_log hfi, Real.exp_log hfni,
    Real.exp_log hp0, Real.exp_log hq0]
  rw [Nat.cast_choose ℝ hi]
  field_simp

/-- The collapse branch evaluates to the discounted binomial expectation of
the payoff list. -/
theorem collapsePx_eq_sum (sp : LTSpecs) (n : ℕ) (O : List ℝ)
    (hp0 : 0 < sp.p) (hp1 : sp.p < 1) :
    collapsePx sp n O =
      sp.df_T * ∑ i ∈ Finset.range (n + 1),
        (n.choose i : ℝ) * sp.p ^ i * (1 - sp.p) ^ (n - i) * O.getD i 0 := by
  rw [collapsePx, Finset.mul_sum]
  apply Finset.sum_congr rfl
  intro i hi
  have hik : i ≤ n := by
    have := Finset.mem_range.mp hi; omega
  rw [exp_tmp sp n i hik hp0 hp1]
  ring

end BinomialCore

section TreeStructure

theorem ltRun_eq_ltRunFrom (sp : LTSpecs) (S0 K signCP : ℝ) (n k : ℕ) :
    ltRun sp S0 K signCP n k =
      ltRunFrom sp (terminalS sp S0 n) (terminalO K signCP (terminalS sp S0 n)) k := rfl

theorem ltRunFrom_O (sp : LTSpecs) (Sterm Oterm : List ℝ) (k : ℕ) :
    (ltRunFrom sp Sterm Oterm k).O = (rollO sp.p sp.df_dt)^[k] Oterm := by
  induction k with
  | zero => rfl
  | succ k ih =>
    rw [ltRunFrom, Function.iterate_succ_apply'] at *
    rw [← ltRunFrom] at *
    rw [Function.iterate_succ_apply']
    simp [ltStep, ih]

theorem ltRunFrom_S (sp : LTSpecs) (Sterm Oterm : List ℝ) (k : ℕ) :
    (ltRunFrom sp Sterm Oterm k).S = (rollS sp.d)^[k] Sterm := by
  induction k with
  | zero => rfl
  | succ k ih =>
    rw [ltRunFrom, Function.iterate_succ_apply'] at *
    rw [← ltRunFrom] at *
    rw [Function.iterate_succ_apply']
    simp [ltStep, ih]

theorem ltRunFrom_Otr (sp : LTSpecs) (Sterm Oterm : List ℝ) (k : ℕ) :
    (ltRunFrom sp Sterm Oterm k).Otr =
      (List.range (k + 1)).map (fun j => (rollO sp.p sp.df_dt)^[k - j] Oterm) := by
  induction k with
  | zero => simp [ltRunFrom]
  | succ k ih =>
    have hstep : ltRunFrom sp Sterm Oterm (k + 1) =
        ltStep sp (ltRunFrom sp Sterm Oterm k) := by
      rw [ltRunFrom, Function.iterate_succ_apply', ← ltRunFrom]
    rw [hstep]
    show rollO sp.p sp.df_dt (ltRunFrom sp Sterm Oterm k).O ::
        (ltRunFrom sp Sterm Oterm k).Otr = _
    rw [ltRunFrom_O, ih]
    have hR : (List.range (k + 1 + 1)).map
        (fun j => (rollO sp.p sp.df_dt)^[k + 1 - j] Oterm) =
        (rollO sp.p sp.df_dt)^[k + 1] Oterm ::
          (List.range (k + 1)).map (fun j => (rollO sp.p sp.df_dt)^[k - j] Oterm) := by
      rw [List.range_succ_eq_map, List.map_cons, List.map_map]
      simp [Function.comp, Nat.succ_sub_succ]
    rw [hR, Function.iterate_succ_apply']

theorem ltRunFrom_Str (sp : LTSpecs) (Sterm Oterm : List ℝ) (k : ℕ) :
    (ltRunFrom sp Sterm Oterm k).Str =
      (List.range (k + 1)).map (fun j => (rollS sp.d)^[k - j] Sterm) := by
  induction k with
  | zero => simp [ltRunFrom]
  | succ k ih =>
    have hstep : ltRunFrom sp Sterm Oterm (k + 1) =
        ltStep sp (ltRunFrom sp Sterm Oterm k) := by
      rw [ltRunFrom, Function.iterate_succ_apply', ← ltRunFrom]
    rw [hstep]
    show rollS sp.d (ltRunFrom sp Sterm Oterm k).S ::
        (ltRunFrom sp Sterm Oterm k).Str = _
    rw [ltRunFrom_S, ih]
    have hR : (List.range (k + 1 + 1)).map
        (fun j => (rollS sp.d)^[k + 1 - j] Sterm) =
        (rollS sp.d)^[k + 1] Sterm ::
          (List.range (k + 1)).map (fun j => (rollS sp.d)^[k - j] Sterm) := by
      rw [List.range_succ_eq_map, List.map_cons, List.map_map]
      simp [Function.comp, Nat.succ_sub_succ]
    rw [hR, Function.iterate_succ_apply']

theorem getD_list_eq {α : Type} (L : List α) (d : α) (i : ℕ) (h : i < L.length) :
    L.getD i d = L.get ⟨i, h⟩ := by
  simp [List.getD_eq_getElem?_getD, List.getElem?_eq_getElem h]

theorem getD_map_range {α : Type} (f : ℕ → α) (d : α) (n i : ℕ) (h : i < n) :
    ((List.range n).map f).getD i d = f i := by
  have hl : i < ((List.range n).map f).length := by simpa using h
  rw [getD_list_eq _ _ _ hl]
  simp [List.get_eq_getElem, List.getElem_map, List.getElem_range]

theorem length_rollO_iter (p df : ℝ) (m : ℕ) (L : List ℝ) :
    ((rollO p df)^[m] L).length = L.length - m := by
  induction m generalizing L with
  | zero => simp
  | succ m ih =>
    rw [Function.iterate_succ_apply, ih, length_rollO]
    omega

theorem length_rollS_iter (d : ℝ) (m : ℕ) (L : List ℝ) :
    ((rollS d)^[m] L).length = L.length - m := by
  induction m generalizing L with
  | zero => simp
  | succ m ih =>
    rw [Function.iterate_succ_apply, ih, length_rollS]
    omega

theorem O_tree_entry (sp : LTSpecs) (S0 K signCP : ℝ) (n i : ℕ) (h : i ≤ n) :
    (O_tree sp S0 K signCP n).getD i [] =
      (rollO sp.p sp.df_dt)^[n - i] (terminalO K signCP (terminalS sp S0 n)) := by
  rw [O_tree, ltRun_eq_ltRunFrom, ltRunFrom_Otr]
  exact getD_map_range _ _ _ _ (by omega)

theorem S_tree_entry (sp : LTSpecs) (S0 K signCP : ℝ) (n i : ℕ) (h : i ≤ n) :
    (S_tree sp S0 K signCP n).getD i [] =
      (rollS sp.d)^[n - i] (terminalS sp S0 n) := by
  rw [S_tree, ltRun_eq_ltRunFrom, ltRunFrom_Str]
  exact getD_map_range _ _ _ _ (by omega)

theorem fullHistPx_eq_sum (sp : LTSpecs) (S0 K signCP : ℝ) (n : ℕ) :
    fullHistPx sp S0 K signCP n =
      sp.df_dt ^ n * ∑ i ∈ Finset.range (n + 1),
        (n.choose i : ℝ) * sp.p ^ i * (1 - sp.p) ^ (n - i) *
          (terminalO K signCP (terminalS sp S0 n)).getD i 0 := by
  rw [fullHistPx, O_tree_entry sp S0 K signCP n 0 (Nat.zero_le n), Nat.sub_zero]
  exact rollO_iter_head sp.p sp.df_dt n _
    (by rw [length_terminalO, length_terminalS])

end TreeStructure

section BranchLemmas

theorem calc_LT_keep (sp : LTSpecs) (S0 K signCP : ℝ) (n : ℕ) :
    calc_LT sp S0 K signCP n true = fullHistPx sp S0 K signCP n := by
  simp [calc_LT]

theorem calc_LT_nokeep (sp : LTSpecs) (S0 K signCP : ℝ) (n : ℕ) :
    calc_LT sp S0 K signCP n false =
      collapsePx sp n (terminalO K signCP (terminalS sp S0 n)) := by
  simp [calc_LT]

theorem crr_df_pow (vol r q T : ℝ) (n : ℕ) (hn : 1 ≤ n) :
    (ltSpecsCRR vol r q T n).df_dt ^ n = (ltSpecsCRR vol r q T n).df_T := by
  show Real.exp (-r * (T / n)) ^ n = Real.exp (-r * T)
  rw [← Real.exp_nat_mul]
  congr 1
  have hn0 : (n : ℝ) ≠ 0 := Nat.cast_ne_zero.mpr (by omega)
  field_simp
  ring

end BranchLemmas

/-- C1: For every valid parameter set (n >= 1, 0 < p < 1, sigma > 0, T > 0,
with the lattice constants produced by the spec-modelled CRR builder
`LT_specs`), the binomial tree price computed in full-history mode (backward
roll with `keep_hist`) equals the price computed in closed-form collapse mode
(log-space binomial terminal-distribution sum, no `keep_hist`); in exact real
arithmetic the two agree exactly, which subsumes the floating-tolerance
statement. -/
theorem LT_fullhist_eq_collapse (vol r q T S0 K signCP : ℝ) (n : ℕ)
    (hn : 1 ≤ n) (hvol : 0 < vol) (hT : 0 < T)
    (hp0 : 0 < (ltSpecsCRR vol r q T n).p) (hp1 : (ltSpecsCRR vol r q T n).p < 1) :
    calc_LT (ltSpecsCRR vol r q T n) S0 K signCP n true =
      calc_LT (ltSpecsCRR vol r q T n) S0 K signCP n false := by
  rw [calc_LT_keep, calc_LT_nokeep, fullHistPx_eq_sum,
    collapsePx_eq_sum _ _ _ hp0 hp1, crr_df_pow vol r q T n hn]

theorem crr_p_simple_eq :
    (ltSpecsCRR 1 0 0 1 1).p = (1 - Real.exp (-1)) / (Real.exp 1 - Real.exp (-1)) := by
  norm_num [ltSpecsCRR, Real.sqrt_one]

theorem crr_p_simple_bounds :
    0 < (ltSpecsCRR 1 0 0 1 1).p ∧ (ltSpecsCRR 1 0 0 1 1).p < 1 := by
  rw [crr_p_simple_eq]
  have he1 : Real.exp (-1 : ℝ) < 1 := by
    have h := Real.exp_lt_exp.mpr (show (-1 : ℝ) < 0 by norm_num)
    simpa [Real.exp_zero] using h
  have he2 : (1 : ℝ) < Real.exp 1 := by
    have h := Real.exp_lt_exp.mpr (show (0 : ℝ) < 1 by norm_num)
    simpa [Real.exp_zero] using h
  have hp : 0 < Real.exp (-1 : ℝ) := Real.exp_pos _
  constructor
  · apply div_pos <;> linarith
  · rw [div_lt_one (by linarith)]
    linarith

/-- Witness for C1 at `vol = 1`, `r = q = 0`, `T = 1`, `n = 1`,
`S0 = K = signCP = 1`. -/
theorem LT_fullhist_eq_collapse_witness :
    calc_LT (ltSpecsCRR 1 0 0 1 1) 1 1 1 1 true =
      calc_LT (ltSpecsCRR 1 0 0 1 1) 1 1 1 1 false :=
  LT_fullhist_eq_collapse 1 0 0 1 1 1 1 1 (by norm_num) (by norm_num) (by norm_num)
    crr_p_simple_bounds.1 crr_p_simple_bounds.2

/-- C2: in closed-form collapse mode, for every n >= 1 and 0 < p < 1, the
returned price equals `df_T` times the sum over `i` of the terminal payoff at
node `i` times `C(n,i) p^i (1-p)^(n-i)`; the embedding `collapsePx` computes
the weight in log-space exactly as the code (`logFact` cumulative sums,
exponentiated once), and this theorem shows it collapses to the exact
binomial weight. -/
theorem collapse_price_formula (sp : LTSpecs) (S0 K signCP : ℝ) (n : ℕ)
    (hn : 1 ≤ n) (hp0 : 0 < sp.p) (hp1 : sp.p < 1) :
    calc_LT sp S0 K signCP n false =
      sp.df_T * ∑ i ∈ Finset.range (n + 1),
        max ((sp.d ^ (n - i) * sp.u ^ i * S0 - K) * signCP) 0 *
          ((n.choose i : ℝ) * sp.p ^ i * (1 - sp.p) ^ (n - i)) := by
  rw [calc_LT_nokeep, collapsePx_eq_sum _ _ _ hp0 hp1]
  congr 1
  apply Finset.sum_congr rfl
  intro i hi
  have hin : i < n + 1 := Finset.mem_range.mp hi
  rw [getD_terminalO _ _ _ _ (by rw [length_terminalS]; omega),
    getD_terminalS _ _ _ _ hin]
  ring

/-- Witness for C2 at a concrete lattice `u = 2, d = p = 1/2,
df_dt = df_T = 1` with `n = 1`. -/
theorem collapse_price_formula_witness :
    calc_LT ⟨2, 1/2, 1/2, 1, 1⟩ 1 1 1 1 false =
      (⟨2, 1/2, 1/2, 1, 1⟩ : LTSpecs).df_T * ∑ i ∈ Finset.range (1 + 1),
        max (((⟨2, 1/2, 1/2, 1, 1⟩ : LTSpecs).d ^ (1 - i) *
            (⟨2, 1/2, 1/2, 1, 1⟩ : LTSpecs).u ^ i * 1 - 1) * 1) 0 *
          ((Nat.choose 1 i : ℝ) * (⟨2, 1/2, 1/2, 1, 1⟩ : LTSpecs).p ^ i *
            (1 - (⟨2, 1/2, 1/2, 1, 1⟩ : LTSpecs).p) ^ (1 - i)) :=
  collapse_price_formula ⟨2, 1/2, 1/2, 1, 1⟩ 1 1 1 1 (by norm_num) (by norm_num)
    (by norm_num)

/-- C3 counterexample: at `n = 0` the full-history branch returns the raw
terminal payoff without the `df_T` discount, so with `df_T = 1/2`, `S0 = 2`,
`K = 1`, `signCP = 1` the full-history price (equal to 1) differs from the
discounted payoff `df_T * max(signCP*(S0-K), 0) = 1/2` that the claim
asserts for both modes. -/
theorem n0_fullhist_not_discounted :
    calc_LT ⟨2, 1/2, 1/2, 1/2, 1/2⟩ 2 1 1 0 true ≠
      (⟨2, 1/2, 1/2, 1/2, 1/2⟩ : LTSpecs).df_T * max (1 * (2 - 1)) 0 := by
  have hS : terminalS ⟨2, 1/2, 1/2, 1/2, 1/2⟩ 2 0 = [2] := by
    simp [terminalS, List.ofFn_succ, List.ofFn_zero]
  have hO : terminalO 1 1 (terminalS ⟨2, 1/2, 1/2, 1/2, 1/2⟩ 2 0) = [1] := by
    rw [hS]
    norm_num [terminalO, payoffE]
  have h1 : calc_LT ⟨2, 1/2, 1/2, 1/2, 1/2⟩ 2 1 1 0 true = 1 := by
    rw [calc_LT_keep, fullHistPx,
      O_tree_entry ⟨2, 1/2, 1/2, 1/2, 1/2⟩ 2 1 1 0 0 le_rfl,
      Nat.sub_self, Function.iterate_zero_apply, hO]
    rfl
  rw [h1]
  norm_num

/-- C3 amended: at `n = 0` the collapse branch returns the discounted
terminal payoff `df_T * max((S0-K)*signCP, 0)`, while the full-history branch
returns the undiscounted payoff `max((S0-K)*signCP, 0)` (the backward loop
body never runs, so no discount factor is ever applied in that branch). -/
theorem n0_degenerate (sp : LTSpecs) (S0 K signCP : ℝ) :
    calc_LT sp S0 K signCP 0 true = max ((S0 - K) * signCP) 0 ∧
    calc_LT sp S0 K signCP 0 false = sp.df_T * max ((S0 - K) * signCP) 0 := by
  have hS : terminalS sp S0 0 = [S0] := by
    simp [terminalS, List.ofFn_succ, List.ofFn_zero]
  have hO : terminalO K signCP (terminalS sp S0 0) = [max ((S0 - K) * signCP) 0] := by
    simp [hS, terminalO, payoffE]
  constructor
  · rw [calc_LT_keep, fullHistPx, O_tree_entry sp S0 K signCP 0 0 le_rfl]
    simp [hO]
  · rw [calc_LT_nokeep, collapsePx, Finset.sum_range_one]
    simp [hO, csl]

/-- C4: in full-history mode, for every `n >= 1`: the trees run from
valuation date (step 0) to maturity (step `n`) with step `i` holding exactly
`i+1` elements; terminal prices are `S0*d^(n-i)*u^i` and terminal values are
`max((S-K)*signCP, 0)`; rolling backward, each value one step earlier is
`df_dt*((1-p)*O[j] + p*O[j+1])` and each price is `d*S[j+1]`; and the
returned price is the single value at step 0 of the value tree. -/
theorem fullhist_tree_structure (sp : LTSpecs) (S0 K signCP : ℝ) (n : ℕ)
    (hn : 1 ≤ n) :
    ((S_tree sp S0 K signCP n).length = n + 1 ∧
      (O_tree sp S0 K signCP n).length = n + 1) ∧
    (∀ i, i ≤ n → ((S_tree sp S0 K signCP n).getD i []).length = i + 1 ∧
      ((O_tree sp S0 K signCP n).getD i []).length = i + 1) ∧
    (∀ i, i ≤ n →
      ((S_tree sp S0 K signCP n).getD n []).getD i 0 =
        sp.d ^ (n - i) * sp.u ^ i * S0 ∧
      ((O_tree sp S0 K signCP n).getD n []).getD i 0 =
        max ((sp.d ^ (n - i) * sp.u ^ i * S0 - K) * signCP) 0) ∧
    (∀ i j, 1 ≤ i → i ≤ n → j < i →
      ((O_tree sp S0 K signCP n).getD (i - 1) []).getD j 0 =
        (((O_tree sp S0 K signCP n).getD i []).getD j 0 * (1 - sp.p) +
          ((O_tree sp S0 K signCP n).getD i []).getD (j + 1) 0 * sp.p) * sp.df_dt ∧
      ((S_tree sp S0 K signCP n).getD (i - 1) []).getD j 0 =
        ((S_tree sp S0 K signCP n).getD i []).getD (j + 1) 0 * sp.d) ∧
    calc_LT sp S0 K signCP n true = ((O_tree sp S0 K signCP n).getD 0 []).getD 0 0 := by
  have hTS : (terminalS sp S0 n).length = n + 1 := length_terminalS sp S0 n
  have hTO : (terminalO K signCP (terminalS sp S0 n)).length = n + 1 := by
    rw [length_terminalO, hTS]
  refine ⟨⟨?_, ?_⟩, ?_, ?_, ?_, ?_⟩
  · rw [S_tree, ltRun_eq_ltRunFrom, ltRunFrom_Str]
    simp
  · rw [O_tree, ltRun_eq_ltRunFrom, ltRunFrom_Otr]
    simp
  · intro i hi
    constructor
    · rw [S_tree_entry sp S0 K signCP n i hi, length_rollS_iter, hTS]
      omega
    · rw [O_tree_entry sp S0 K signCP n i hi, length_rollO_iter, hTO]
      omega
  · intro i hi
    have hii : i < n + 1 := by omega
    constructor
    · rw [S_tree_entry sp S0 K signCP n n le_rfl, Nat.sub_self,
        Function.iterate_zero_apply, getD_terminalS sp S0 n i hii]
    · rw [O_tree_entry sp S0 K signCP n n le_rfl, Nat.sub_self,
        Function.iterate_zero_apply,
        getD_terminalO K signCP _ i (by omega), getD_terminalS sp S0 n i hii]
  · intro i j hi1 hin hji
    have hOi : (O_tree sp S0 K signCP n).getD i [] =
        (rollO sp.p sp.df_dt)^[n - i] (terminalO K signCP (terminalS sp S0 n)) :=
      O_tree_entry sp S0 K signCP n i hin
    have hSi : (S_tree sp S0 K signCP n).getD i [] =
        (rollS sp.d)^[n - i] (terminalS sp S0 n) :=
      S_tree_entry sp S0 K signCP n i hin
    have hsuccO : n - (i - 1) = (n - i) + 1 := by omega
    have hlenO : ((rollO sp.p sp.df_dt)^[n - i]
        (terminalO K signCP (terminalS sp S0 n))).length = i + 1 := by
      rw [length_rollO_iter, hTO]; omega
    have hlenS : ((rollS sp.d)^[n - i] (terminalS sp S0 n)).length = i + 1 := by
      rw [length_rollS_iter, hTS]; omega
    constructor
    · rw [O_tree_entry sp S0 K signCP n (i - 1) (by omega), hsuccO,
        Function.iterate_succ_apply', getD_rollO _ _ _ j (by omega), hOi]
    · rw [S_tree_entry sp S0 K signCP n (i - 1) (by omega), hsuccO,
        Function.iterate_succ_apply', getD_rollS _ _ j (by omega), hSi]
  · rw [calc_LT_keep, fullHistPx]

/-- Witness for C4 at a concrete lattice with `n = 1`. -/
theorem fullhist_tree_structure_witness :
    (S_tree ⟨2, 1/2, 1/2, 1, 1⟩ 1 1 1 1).length = 1 + 1 :=
  (fullhist_tree_structure ⟨2, 1/2, 1/2, 1, 1⟩ 1 1 1 1 (by norm_num)).1.1

theorem terminalO_getD_nonneg (K signCP : ℝ) (S : List ℝ) (i : ℕ) :
    0 ≤ (terminalO K signCP S).getD i 0 := by
  by_cases h : i < (terminalO K signCP S).length
  · have hs : i < S.length := by rw [length_terminalO] at h; exact h
    rw [getD_terminalO K signCP S i hs]
    exact le_max_right _ _
  · rw [List.getD_eq_default _ _ (by omega)]

theorem rollO_getD_nonneg (p df : ℝ) (hp0 : 0 ≤ p) (hp1 : p ≤ 1) (hdf : 0 ≤ df)
    (L : List ℝ) (hL : ∀ i, 0 ≤ L.getD i 0) (i : ℕ) :
    0 ≤ (rollO p df L).getD i 0 := by
  by_cases h : i < (rollO p df L).length
  · have h2 : i + 1 < L.length := by rw [length_rollO] at h; omega
    rw [getD_rollO _ _ _ _ h2]
    have h1p : (0 : ℝ) ≤ 1 - p := by linarith
    exact mul_nonneg (add_nonneg (mul_nonneg (hL i) h1p) (mul_nonneg (hL (i + 1)) hp0)) hdf
  · rw [List.getD_eq_default _ _ (by omega)]

theorem rollO_iter_getD_nonneg (p df : ℝ) (hp0 : 0 ≤ p) (hp1 : p ≤ 1)
    (hdf : 0 ≤ df) (m : ℕ) (L : List ℝ) (hL : ∀ i, 0 ≤ L.getD i 0) (i : ℕ) :
    0 ≤ ((rollO p df)^[m] L).getD i 0 := by
  induction m generalizing L with
  | zero => simpa using hL i
  | succ m ih =>
    rw [Function.iterate_succ_apply]
    exact ih (rollO p df L) (rollO_getD_nonneg p df hp0 hp1 hdf L hL)

/-- C7 (amended to the lattice part): under 0 <= p <= 1 and non-negative
discount factors, every entry of the option value tree at every step, the
full-history tree price, and the collapse price are non-negative.  (The
original claim also asserted non-negativity of the finite-difference grid,
which the counterexample `fd_grid_negative_entry` refutes.) -/
theorem value_tree_nonneg (sp : LTSpecs) (S0 K signCP : ℝ) (n : ℕ)
    (hp0 : 0 ≤ sp.p) (hp1 : sp.p ≤ 1) (hdt : 0 ≤ sp.df_dt) (hdT : 0 ≤ sp.df_T) :
    (∀ i j, 0 ≤ ((O_tree sp S0 K signCP n).getD i []).getD j 0) ∧
    0 ≤ calc_LT sp S0 K signCP n true ∧
    0 ≤ calc_LT sp S0 K signCP n false := by
  have hmain : ∀ i j, 0 ≤ ((O_tree sp S0 K signCP n).getD i []).getD j 0 := by
    intro i j
    by_cases hi : i ≤ n
    · rw [O_tree_entry sp S0 K signCP n i hi]
      exact rollO_iter_getD_nonneg sp.p sp.df_dt hp0 hp1 hdt (n - i) _
        (terminalO_getD_nonneg K signCP _) j
    · have hlen : (O_tree sp S0 K signCP n).length = n + 1 := by
        rw [O_tree, ltRun_eq_ltRunFrom, ltRunFrom_Otr]
        simp
      rw [show (O_tree sp S0 K signCP n).getD i [] = [] from
        List.getD_eq_default _ _ (by omega)]
      simp
  refine ⟨hmain, ?_, ?_⟩
  · rw [calc_LT_keep, fullHistPx]
    exact hmain 0 0
  · rw [calc_LT_nokeep, collapsePx]
    apply Finset.sum_nonneg
    intro i hi
    exact mul_nonneg (mul_nonneg (le_of_lt (Real.exp_pos _)) hdT)
      (terminalO_getD_nonneg K signCP _ i)

/-- Witness for C7 at a concrete lattice with `n = 1`. -/
theorem value_tree_nonneg_witness :
    0 ≤ calc_LT ⟨2, 1/2, 1/2, 1, 1⟩ 1 1 1 1 true :=
  (value_tree_nonneg ⟨2, 1/2, 1/2, 1, 1⟩ 1 1 1 1 (by norm_num) (by norm_num)
    (by norm_num) (by norm_num)).2.1

/-- C9: for every input with S0 > 0, K > 0, vol > 0, T > 0, the call and put
prices that `European._calc_BS` computes in the same call satisfy put-call
parity exactly: `px_call - px_put = S0*e^(-q*T) - K*e^(-r*T)`.  The
cumulative normal `Util.norm_cdf` is outside `src/` and is modelled as an
abstract function with the distribution symmetry `N(-x) = 1 - N(x)`. -/
theorem BS_put_call_parity (N : ℝ → ℝ) (S0 K vol r q T : ℝ)
    (hN : ∀ x, N (-x) = 1 - N x)
    (hS : 0 < S0) (hK : 0 < K) (hvol : 0 < vol) (hT : 0 < T) :
    pxCallBS N S0 K vol r q T - pxPutBS N S0 K vol r q T =
      S0 * Real.exp (-q * T) - K * Real.exp (-r * T) := by
  rw [pxCallBS, pxPutBS, hN, hN]
  ring

/-- Witness for C9 with the symmetric CDF `N = const 1/2` at
`S0 = K = vol = T = 1`, `r = q = 0`. -/
theorem BS_put_call_parity_witness :
    pxCallBS (fun _ => 1/2) 1 1 1 0 0 1 - pxPutBS (fun _ => 1/2) 1 1 1 0 0 1 =
      1 * Real.exp (-0 * 1) - 1 * Real.exp (-0 * 1) :=
  BS_put_call_parity (fun _ => 1/2) 1 1 1 0 0 1 (fun _ => by norm_num)
    (by norm_num) (by norm_num) (by norm_num) (by norm_num)

/-- C10: `LowExercisePrice.calc_px` overwrites the object's strike with 0.01
and its right with call before dispatching, and the lattice and
finite-difference implementations hardcode the strike 0.01 (with `K2 = 0`),
so the returned price never depends on any caller-set strike or right. -/
theorem lep_ignores_caller_strike_right (cK cK' : ℝ) (cR cR' : String)
    (vol r q T S0 : ℝ) (n : ℕ) (keep_hist : Bool)
    (S0f volf Tf rf qf : ℝ) (nsteps npaths : ℕ) :
    lepCalcPxLT cK cR vol r q T S0 n keep_hist =
      lepCalcPxLT cK' cR' vol r q T S0 n keep_hist ∧
    lepCalcPxFD cK cR S0f volf Tf rf qf nsteps npaths =
      lepCalcPxFD cK' cR' S0f volf Tf rf qf nsteps npaths :=
  ⟨rfl, rfl⟩

section FDGate

theorem not_fdValid_iff (I : FDIn) :
    ¬ fdValid I ↔
      (¬(I.right = "call" ∨ I.right = "put") ∨ I.vol ≤ 0 ∨ I.K ≤ 0 ∨
        I.T ≤ 0 ∨ I.S0 < 0 ∨ I.r < 0) := by
  constructor
  · intro h
    by_contra hc
    push_neg at hc
    obtain ⟨h1, h2, h3, h4, h5, h6⟩ := hc
    exact h ⟨h1, h2, h3, h4, h5, h6⟩
  · intro h hv
    obtain ⟨h1, h2, h3, h4, h5, h6⟩ := hv
    rcases h with h | h | h | h | h | h
    · exact h h1
    · linarith
    · linarith
    · linarith
    · linarith
    · linarith

/-- C6 amended: the finite-difference call fails immediately with an
invalid-argument error, before computing anything and leaving no partial
result, exactly when the assert gate is violated: option right not call or
put, volatility, strike or maturity not strictly positive, or underlying
price or rate negative.  (Step/path counts are NOT validated by the gate;
the original claim included them, which `fd_steps_not_validated` refutes.) -/
theorem fd_gate_iff (I : FDIn) :
    (∃ e, calcFD I = Except.error e) ↔
      (¬(I.right = "call" ∨ I.right = "put") ∨ I.vol ≤ 0 ∨ I.K ≤ 0 ∨
        I.T ≤ 0 ∨ I.S0 < 0 ∨ I.r < 0) := by
  rw [← not_fdValid_iff]
  by_cases hv : fdValid I
  · simp only [calcFD, if_pos hv]
    constructor
    · rintro ⟨e, he⟩
      exact absurd he (by simp)
    · intro h
      exact absurd hv h
  · simp only [calcFD, if_neg hv]
    constructor
    · intro _
      exact hv
    · intro _
      exact ⟨"invalid argument", rfl⟩

/-- C6 counterexample: with `nsteps = 0` and `npaths = 0` (claimed to be a
validated precondition) but all asserted conditions satisfied, `_calc_FD`
does not raise the invalid-argument error: the assert gate passes and a
price is produced, so the claimed "exactly when" equivalence fails. -/
theorem fd_steps_not_validated :
    calcFD ⟨"call", 1, 1, 1, 1, 0, 0, 0, 0⟩ =
      Except.ok (fdPrice ⟨"call", 1, 1, 1, 1, 0, 0, 0, 0⟩) := by
  have hv : fdValid ⟨"call", 1, 1, 1, 1, 0, 0, 0, 0⟩ :=
    ⟨Or.inl rfl, by norm_num, by norm_num, by norm_num, by norm_num, by norm_num⟩
  simp only [calcFD, if_pos hv]

end FDGate

section FDNoop

theorem gridFDnr_boundary (I : FDIn) (k : ℕ) (hk : k ≤ Nfd I) :
    (∀ t, gridFDnr I k 0 t = grid0 I 0 t) ∧
    (∀ t, gridFDnr I k (Mfd I) t = grid0 I (Mfd I) t) ∧
    (∀ i, gridFDnr I k i (Nfd I) = grid0 I i (Nfd I)) := by
  induction k with
  | zero => exact ⟨fun _ => rfl, fun _ => rfl, fun _ => rfl⟩
  | succ k ih =>
    have hk' : k ≤ Nfd I := by omega
    obtain ⟨ih0, ihM, ihN⟩ := ih hk'
    have hN1 : 1 ≤ Nfd I := by omega
    refine ⟨fun t => ?_, fun t => ?_, fun i => ?_⟩
    · show stepFDnr I (gridFDnr I k) (Nfd I - 1 - k) 0 t = _
      simp only [stepFDnr]
      rw [dif_neg (by omega)]
      exact ih0 t
    · show stepFDnr I (gridFDnr I k) (Nfd I - 1 - k) (Mfd I) t = _
      simp only [stepFDnr]
      rw [dif_neg (by omega)]
      exact ihM t
    · show stepFDnr I (gridFDnr I k) (Nfd I - 1 - k) i (Nfd I) = _
      simp only [stepFDnr]
      rw [dif_neg (by omega)]
      exact ihN i

theorem gridFD_eq_gridFDnr (I : FDIn) (k : ℕ) (hk : k ≤ Nfd I) :
    gridFD I k = gridFDnr I k := by
  induction k with
  | zero => rfl
  | succ k ih =>
    have hk' : k ≤ Nfd I := by omega
    have heq := ih hk'
    obtain ⟨ih0, ihM, ihN⟩ := gridFDnr_boundary I k hk'
    have hN1 : 1 ≤ Nfd I := by omega
    show stepFD I (gridFD I k) (Nfd I - 1 - k) =
      stepFDnr I (gridFDnr I k) (Nfd I - 1 - k)
    rw [heq]
    funext i t
    simp only [stepFD, stepFDnr]
    by_cases hiM : i = Mfd I
    · subst hiM
      rw [if_pos rfl, dif_neg (by omega), ihM t]
      simp [grid0]
    · by_cases hi0 : i = 0
      · subst hi0
        rw [if_neg hiM, if_pos rfl, dif_neg (by omega), ih0 t]
        simp [grid0, hiM]
      · by_cases htN : t = Nfd I
        · subst htN
          rw [if_neg hiM, if_neg hi0, if_pos rfl, dif_neg (by omega), ihN i]
          simp [grid0, hiM, hi0]
        · rw [if_neg hiM, if_neg hi0, if_neg htN]

/-- C8: inside the finite-difference backward time loop, the re-assignment of
the terminal column and the two boundary rows performed after each linear
solve leaves the grid unchanged: at every loop count `k <= N` the grid equals
the grid computed with the re-assignments removed, and the final price is the
same. -/
theorem fd_reassignments_are_noop (I : FDIn) (k : ℕ) (hk : k ≤ Nfd I) :
    gridFD I k = gridFDnr I k ∧ fdPrice I = fdPriceNR I := by
  refine ⟨gridFD_eq_gridFDnr I k hk, ?_⟩
  rw [fdPrice, fdPriceNR, gridFD_eq_gridFDnr I (Nfd I) le_rfl]

/-- Witness for C8 at a concrete call input with `nsteps = 2`, `npaths = 3`. -/
theorem fd_reassignments_are_noop_witness :
    fdPrice ⟨"call", 1, 1, 1, 1, 0, 0, 2, 3⟩ =
      fdPriceNR ⟨"call", 1, 1, 1, 1, 0, 0, 2, 3⟩ :=
  (fd_reassignments_are_noop ⟨"call", 1, 1, 1, 1, 0, 0, 2, 3⟩ 1
    (by norm_num [Nfd])).2

end FDNoop

section FDSolve

theorem inv_mulVec_unique {m : ℕ} (B : Matrix (Fin m) (Fin m) ℝ)
    (v w : Fin m → ℝ) (hdet : IsUnit B.det) (h : B.mulVec v = w) :
    B⁻¹.mulVec w = v := by
  rw [← h, Matrix.mulVec_mulVec, Matrix.nonsing_inv_mul _ hdet, Matrix.one_mulVec]

/-- C5 amended: for every valid input with at least two interior cells
(npaths >= 4, i.e. M >= 3) and an invertible system matrix: the tridiagonal
matrix `B` holds the coefficients `a_j`, `b_j`, `c_j` as claimed; each
backward step for time index `idx = N-1-k` solves `B*x = f[:,idx+1] + offset`
with `offset[0] = -a_1*f[0,idx]` and `offset[last] = -c_(M-1)*f[M,idx]`; and
the returned price is the linear interpolation of the time-0 grid column at
`S0`.  (When `npaths = 3` the two offset writes hit the same single cell and
only the `c`-term survives, refuting the unrestricted claim — see
`fd_offset_claim_fails_M2`.) -/
theorem fd_backward_step_solves (I : FDIn) (k : ℕ)
    (hM : 3 ≤ Mfd I) (hk : k < Nfd I) (hdet : IsUnit (Bfd I).det) :
    (∀ rr cc : Fin (Mfd I - 1),
      Bfd I rr cc =
        if (cc : ℕ) = (rr : ℕ) then
          1 + dtFD I * (I.vol ^ 2 * (((rr : ℕ) + 1 : ℕ) : ℝ) ^ 2 + I.r)
        else if (cc : ℕ) + 1 = (rr : ℕ) then
          0.5 * dtFD I * ((I.r - I.q) * (((rr : ℕ) + 1 : ℕ) : ℝ) -
            I.vol ^ 2 * (((rr : ℕ) + 1 : ℕ) : ℝ) ^ 2)
        else if (rr : ℕ) + 1 = (cc : ℕ) then
          0.5 * dtFD I * (-(I.r - I.q) * (((rr : ℕ) + 1 : ℕ) : ℝ) -
            I.vol ^ 2 * (((rr : ℕ) + 1 : ℕ) : ℝ) ^ 2)
        else 0) ∧
    ((Bfd I).mulVec
        (fun j : Fin (Mfd I - 1) =>
          gridFD I (k + 1) ((j : ℕ) + 1) (Nfd I - 1 - k)) =
      fun j : Fin (Mfd I - 1) =>
        gridFD I k ((j : ℕ) + 1) ((Nfd I - 1 - k) + 1) +
          (if (j : ℕ) = Mfd I - 2 then
            -cFD I (Mfd I - 1) * gridFD I k (Mfd I) (Nfd I - 1 - k)
          else if (j : ℕ) = 0 then
            -aFD I 1 * gridFD I k 0 (Nfd I - 1 - k)
          else 0)) ∧
    fdPrice I = npInterp I.S0 (svec I) (fun i => gridFD I (Nfd I) i 0) (Mfd I) := by
  refine ⟨fun rr cc => rfl, ?_, rfl⟩
  have hcol : (fun j : Fin (Mfd I - 1) =>
      gridFD I (k + 1) ((j : ℕ) + 1) (Nfd I - 1 - k)) =
      solveFD I (gridFD I k) (Nfd I - 1 - k) := by
    funext j
    have hj := j.isLt
    show stepFD I (gridFD I k) (Nfd I - 1 - k) ((j : ℕ) + 1) (Nfd I - 1 - k) = _
    simp only [stepFD]
    rw [if_neg (by omega), if_neg (by omega), if_neg (by omega),
      dif_pos ⟨by trivial, by omega, by omega⟩]
    exact congrArg (solveFD I (gridFD I k) (Nfd I - 1 - k))
      (Fin.eq_of_val_eq (by simp))
  rw [hcol, solveFD, Matrix.mulVec_mulVec, Matrix.mul_nonsing_inv _ hdet,
    Matrix.one_mulVec]
  funext j
  simp only [rhsFD, offsetFD]
  have h2 : Mfd I - 1 - 1 = Mfd I - 2 := by omega
  rw [h2]

theorem solve2_eval (B : Matrix (Fin 2) (Fin 2) ℝ) (w v : Fin 2 → ℝ)
    (hdet : IsUnit B.det) (h1 : B 0 0 * v 0 + B 0 1 * v 1 = w 0)
    (h2 : B 1 0 * v 0 + B 1 1 * v 1 = w 1) :
    B⁻¹.mulVec w = v := by
  apply inv_mulVec_unique _ _ _ hdet
  funext j
  fin_cases j
  · simpa [Matrix.mulVec, Matrix.dotProduct, Fin.sum_univ_two] using h1
  · simpa [Matrix.mulVec, Matrix.dotProduct, Fin.sum_univ_two] using h2

theorem Bfd_IW_det : (Bfd IW).det = 55653 / 10000 := by
  show ((Bfd IW : Matrix (Fin 2) (Fin 2) ℝ)).det = 55653 / 10000
  rw [Matrix.det_fin_two]
  norm_num [Bfd, Matrix.of_apply, aFD, bFD, cFD, dtFD, IW, Fin.val_zero, Fin.val_one]

theorem Bfd_IW_unit : IsUnit (Bfd IW).det := by
  rw [Bfd_IW_det]
  exact isUnit_iff_ne_zero.mpr (by norm_num)

/-- Witness for C5 at the concrete input `IW` (M = 3, N = 2), step `k = 0`. -/
theorem fd_backward_step_solves_witness :
    fdPrice IW = npInterp IW.S0 (svec IW) (fun i => gridFD IW (Nfd IW) i 0) (Mfd IW) :=
  (fd_backward_step_solves IW 0 (by norm_num [Mfd, IW]) (by norm_num [Nfd, IW])
    Bfd_IW_unit).2.2

/-- C5 counterexample: with `npaths = 3` (M = 2, a single interior cell) the
claim's `offset[0] = -a_1 * f[0,idx]` fails: the single `Offset` cell is
overwritten by the `-c_(M-1) * f[M,idx]` assignment, which at the input `IW2`
equals `199/200` while `-a_1 * f[0,idx] = 0`. -/
theorem fd_offset_claim_fails_M2 :
    offsetFD IW2 (gridFD IW2 0) 0 0 ≠ -aFD IW2 1 * gridFD IW2 0 0 0 := by
  have hlow : lowerBound IW2 0 = 199 / 100 := by
    simp only [lowerBound, IW2]
    rw [if_pos (by trivial)]
    have hsv : svec IW2 (Mfd IW2) = 2 := by
      norm_num [svec, Mfd, IW2]
    have htv : tvec IW2 0 = 0 := by
      norm_num [tvec, IW2]
    simp only [IW2] at hsv htv
    rw [hsv, htv]
    rw [show ((2 : ℝ) - KLEP) = 199/100 by norm_num [KLEP]]
    rw [max_eq_left (by norm_num), indR, if_pos (by norm_num [K2LEP])]
    norm_num [Real.exp_zero]
  have hup : upperBound IW2 0 = 0 := by
    simp only [upperBound, IW2]
    rw [if_pos (by trivial)]
  have hg0 : gridFD IW2 0 0 0 = 0 := by
    show grid0 IW2 0 0 = 0
    simp only [grid0]
    rw [if_neg (by norm_num [Mfd, IW2]), if_pos (by trivial), hup]
  have hgM : gridFD IW2 0 (Mfd IW2) 0 = 199 / 100 := by
    show grid0 IW2 (Mfd IW2) 0 = _
    simp only [grid0]
    rw [if_pos (by trivial), hlow]
  have hoff : offsetFD IW2 (gridFD IW2 0) 0 0 = 199 / 200 := by
    simp only [offsetFD]
    rw [if_pos (by norm_num [Mfd, IW2])]
    rw [show (Mfd IW2 : ℕ) = 2 from rfl] at hgM
    rw [show (Mfd IW2 : ℕ) - 1 = 1 from rfl, show (Mfd IW2 : ℕ) = 2 from rfl, hgM]
    have hc : cFD IW2 1 = -(1/2) := by
      norm_num [cFD, dtFD, IW2]
    rw [hc]
    norm_num
  rw [hoff, hg0]
  norm_num

/-- C7 counterexample: a finite-difference grid value can be negative.  At
the valid call input `IW` (S0 = 1, vol = 1/10, T = 2, r = 0, q = 3,
nsteps = 3, npaths = 4) the interior grid entry `f[2,1]` produced by the
first backward solve equals `-4004703/8347950 < 0`. -/
theorem fd_grid_negative_entry : gridFD IW 1 2 1 < 0 := by
  have hinit1 : initCond IW 1 = 197 / 300 := by
    simp only [initCond, IW]
    rw [if_pos (by trivial)]
    have hsv : svec IW 1 = 2/3 := by norm_num [svec, IW]
    simp only [IW] at hsv
    rw [hsv]
    rw [show ((2:ℝ)/3 - KLEP) = 197/300 by norm_num [KLEP]]
    rw [max_eq_left (by norm_num), indR, if_pos (by norm_num [K2LEP])]
    norm_num
  have hinit2 : initCond IW 2 = 397 / 300 := by
    simp only [initCond, IW]
    rw [if_pos (by trivial)]
    have hsv : svec IW 2 = 4/3 := by norm_num [svec, IW]
    simp only [IW] at hsv
    rw [hsv]
    rw [show ((4:ℝ)/3 - KLEP) = 397/300 by norm_num [KLEP]]
    rw [max_eq_left (by norm_num), indR, if_pos (by norm_num [K2LEP])]
    norm_num
  have hlow : ∀ t, lowerBound IW t = 199 / 100 := by
    intro t
    simp only [lowerBound, IW]
    rw [if_pos (by trivial)]
    have hsv : svec IW (Mfd IW) = 2 := by norm_num [svec, Mfd, IW]
    simp only [IW] at hsv
    rw [hsv]
    rw [show ((2 : ℝ) - KLEP) = 199/100 by norm_num [KLEP]]
    rw [max_eq_left (by norm_num), indR, if_pos (by norm_num [K2LEP])]
    norm_num [Real.exp_zero]
  have hup : ∀ t, upperBound IW t = 0 := by
    intro t
    simp only [upperBound, IW]
    rw [if_pos (by trivial)]
  have hrhs : rhsFD IW (grid0 IW) 1 =
      ![197 / 300, -69103 / 15000] := by
    funext j
    fin_cases j
    · show grid0 IW (0 + 1) (1 + 1) + offsetFD IW (grid0 IW) 1 0 = _
      have hgrid : grid0 IW 1 2 = 197 / 300 := by
        simp only [grid0]
        rw [if_neg (by norm_num [Mfd, IW]), if_neg (by norm_num),
          if_pos (by norm_num [Nfd, IW]), hinit1]
      have hoff : offsetFD IW (grid0 IW) 1 0 = 0 := by
        simp only [offsetFD]
        rw [if_neg (by norm_num [Mfd, IW]), if_pos (by trivial)]
        have hg00 : grid0 IW 0 1 = 0 := by
          simp only [grid0]
          rw [if_neg (by norm_num [Mfd, IW]), if_pos (by trivial), hup]
        rw [hg00]
        ring
      rw [hgrid, hoff]
      norm_num
    · show grid0 IW (1 + 1) (1 + 1) + offsetFD IW (grid0 IW) 1 1 = _
      have hgrid : grid0 IW 2 2 = 397 / 300 := by
        simp only [grid0]
        rw [if_neg (by norm_num [Mfd, IW]), if_neg (by norm_num),
          if_pos (by norm_num [Nfd, IW]), hinit2]
      have hoff : offsetFD IW (grid0 IW) 1 1 = -29651 / 5000 := by
        simp only [offsetFD]
        rw [if_pos (by norm_num [Mfd, IW])]
        have hgM : grid0 IW (Mfd IW) 1 = 199 / 100 := by
          simp only [grid0]
          rw [if_pos (by trivial), hlow]
        rw [show (Mfd IW : ℕ) - 1 = 2 from rfl] at *
        rw [show (Mfd IW : ℕ) = 3 from rfl] at hgM
        rw [show (Mfd IW : ℕ) = 3 from rfl, hgM]
        have hc : cFD IW 2 = 149 / 50 := by
          norm_num [cFD, dtFD, IW]
        rw [hc]
        norm_num
      rw [hgrid, hoff]
      norm_num
  have hsolve : solveFD IW (grid0 IW) 1 =
      ![22710597 / 16695900, -4004703 / 8347950] := by
    rw [solveFD, hrhs]
    apply solve2_eval _ _ _ Bfd_IW_unit
    · norm_num [Bfd, Matrix.of_apply, aFD, bFD, cFD, dtFD, IW,
        Matrix.cons_val_zero, Matrix.cons_val_one, Matrix.head_cons]
    · norm_num [Bfd, Matrix.of_apply, aFD, bFD, cFD, dtFD, IW,
        Matrix.cons_val_zero, Matrix.cons_val_one, Matrix.head_cons]
  have hentry : gridFD IW 1 2 1 = -4004703 / 8347950 := by
    show stepFD IW (grid0 IW) (Nfd IW - 1 - 0) 2 1 = _
    rw [show Nfd IW - 1 - 0 = 1 from rfl]
    simp only [stepFD]
    rw [if_neg (by norm_num [Mfd, IW]), if_neg (by norm_num),
      if_neg (by norm_num [Nfd, IW]),
      dif_pos ⟨by trivial, by norm_num, by norm_num [Mfd, IW]⟩]
    rw [hsolve]
    show (![22710597 / 16695900, -4004703 / 8347950] : Fin 2 → ℝ) (1 : Fin 2) =
      -4004703 / 8347950
    norm_num [Matrix.cons_val_one, Matrix.head_cons]
  rw [hentry]
  norm_num

end FDSolve

end QFRM
